import Mathlib

set_option autoImplicit false

/-!
Verification of the line-length fixer (src/fixes/fix_maximum_line_length.py).

The development shallowly embeds the fixer over a concrete-syntax-tree type.
Pure text manipulation is done on `List Char` (one entry per character, as
Python string indexing/len work per character); tree mutation is modelled by
functions returning the new tree; Python exceptions are modelled by
`Except String`, whose error string names the exception the interpreter
would raise.

External helpers that the fixer imports from outside this file's source
(`tuplize_comments`, `get_quotes` from the package's utils module, and the
standard-library text wrapper) are modelled from the specification; their
definitions carry a `Modelled from the spec` doc comment.
-/

/-- Python whitespace for str.strip()/str.split(): space, tab, newline,
carriage return, vertical tab, form feed. -/
def isPySpace (c : Char) : Bool :=
  c = ' ' || c = '\t' || c = '\n' || c = '\r' || c = '\x0b' || c = '\x0c'

/-- Python str.split('\n'): split on newlines, keeping empty segments. -/
def splitNl : List Char → List (List Char)
  | [] => [[]]
  | c :: cs =>
    if c = '\n' then [] :: splitNl cs
    else
      match splitNl cs with
      | [] => [[c]]
      | w :: ws => (c :: w) :: ws

/-- Join lines with a newline between them (Python newline-join). -/
def joinNl : List (List Char) → List Char
  | [] => []
  | [l] => l
  | l :: ls => l ++ '\n' :: joinNl ls

/-- Join pieces with a single space between them (Python space-join). -/
def joinSp : List (List Char) → List Char
  | [] => []
  | [w] => w
  | w :: ws => w ++ ' ' :: joinSp ws

/-- Worker for whitespace-splitting; `acc` holds the reversed current word. -/
def splitWordsAux : List Char → List Char → List (List Char)
  | [], acc => if acc.isEmpty then [] else [acc.reverse]
  | c :: cs, acc =>
    if isPySpace c then
      if acc.isEmpty then splitWordsAux cs [] else acc.reverse :: splitWordsAux cs []
    else splitWordsAux cs (c :: acc)

/-- Split text into whitespace-separated words, dropping empty pieces
(Python str.split() with no argument). -/
def splitWordsL (l : List Char) : List (List Char) :=
  splitWordsAux l []

/-- Python str.lstrip(). -/
def pyLstripL (l : List Char) : List Char :=
  l.dropWhile isPySpace

/-- Python str.strip(). -/
def pyStripL (l : List Char) : List Char :=
  ((l.dropWhile isPySpace).reverse.dropWhile isPySpace).reverse

/-- Python str.strip() on `String`. -/
def pyStrip (s : String) : String :=
  String.mk (pyStripL s.data)

/-- Python str.replace(c, '', 1): drop the first occurrence of a character. -/
def removeFirst (c : Char) : List Char → List Char
  | [] => []
  | x :: xs => if x = c then xs else x :: removeFirst c xs

/-- Index of the first occurrence of a character (Python str.index, which
raises ValueError when absent — hence the Option). -/
def idxOfAux (c : Char) : List Char → Nat → Option Nat
  | [], _ => none
  | x :: xs, i => if x = c then some i else idxOfAux c xs (i + 1)

def idxOf (c : Char) (l : List Char) : Option Nat :=
  idxOfAux c l 0

/-- `MAX_CHARS = 79` from the source. -/
def MAX_CHARS : Nat := 79

/-! ### The text wrapper

Modelled from the spec: the Text Wrapper component (spec section 4.1) — the
width-constrained greedy line wrapper the engine instantiates; its
implementation is not part of the source under verification.  Given body
text, a width, an initial indent and a subsequent indent it greedily packs
whitespace-separated words into lines; a word that does not fit on the
current line opens a new line; a word too long even for a line of its own is
still emitted whole on a single (over-length) line. -/

/-- Sum of the lengths of a list of words. -/
def sumLens (ws : List (List Char)) : Nat :=
  (ws.map List.length).sum

/-- Rendered width of a line: indent width plus word lengths plus single
spaces between consecutive words. -/
def lineLen (ind : Nat) (l : List (List Char)) : Nat :=
  ind + sumLens l + (l.length - 1)

/-- Greedy chunking of words into lines. `cur` is the reversed current line,
`curLen` its rendered width so far (indent included). -/
def wrapChunksAux (width subLen : Nat) : List (List Char) → List (List Char) → Nat → List (List (List Char))
  | [], cur, _ => [cur.reverse]
  | w :: ws, cur, curLen =>
    if cur.isEmpty then wrapChunksAux width subLen ws [w] (curLen + w.length)
    else if curLen + 1 + w.length ≤ width then
      wrapChunksAux width subLen ws (w :: cur) (curLen + 1 + w.length)
    else cur.reverse :: wrapChunksAux width subLen ws [w] (subLen + w.length)

/-- Render chunked words into physical lines: the first line carries the
initial indent, the rest the subsequent indent. -/
def renderChunks (ini sub : List Char) : List (List (List Char)) → List (List Char)
  | [] => []
  | l0 :: rest => (ini ++ joinSp l0) :: rest.map (fun l => sub ++ joinSp l)

/-- Modelled from the spec: wrapping entry point (TextWrapper(...).wrap).
Empty text yields no lines, mirroring the wrapper's contract. -/
def wrapTextL (width : Nat) (ini sub : List Char) (text : List Char) : List (List Char) :=
  match splitWordsL text with
  | [] => []
  | ws => renderChunks ini sub (wrapChunksAux width sub.length ws [] ini.length)

/-- Append the closing delimiter to every line except the last
(source line 101). -/
def closeLinesL (qe : List Char) : List (List Char) → List (List Char)
  | [] => []
  | [l] => [l]
  | l :: ls => (l ++ qe) :: closeLinesL qe ls

/-! ### Token and grammar-symbol kind tags

Token numbers follow the pgen2 token module; grammar symbol numbers are
assigned by the grammar at load time — only their distinctness (and being
disjoint from token numbers) is relied upon by the fixer's dispatch. -/

def tokNAME : Nat := 1
def tokNUMBER : Nat := 2
def tokSTRING : Nat := 3
def tokNEWLINE : Nat := 4
def tokINDENT : Nat := 5
def tokLPAR : Nat := 7
def tokRPAR : Nat := 8
def tokLSQB : Nat := 9
def tokRSQB : Nat := 10
def tokCOLON : Nat := 11
def tokCOMMA : Nat := 12
def tokEQUAL : Nat := 22
def tokDOT : Nat := 23
def tokLBRACE : Nat := 26
def tokRBRACE : Nat := 27

def symPrintStmt : Nat := 269
def symReturnStmt : Nat := 277
def symExprStmt : Nat := 267
def symPower : Nat := 307
def symAtom : Nat := 305
def symImportFrom : Nat := 281
def symImportAsNames : Nat := 283
def symOrTest : Nat := 303
def symAndTest : Nat := 295
def symNotTest : Nat := 302
def symTest : Nat := 310
def symArithExpr : Nat := 296
def symComparison : Nat := 298
def symParameters : Nat := 306
def symTrailer : Nat := 322

/-- `OPENING_TOKENS` from the source. -/
def OPENING_TOKENS : List Nat := [tokLPAR, tokLSQB, tokLBRACE]

/-- `CLOSING_TOKENS` from the source. -/
def CLOSING_TOKENS : List Nat := [tokRPAR, tokRSQB, tokRBRACE]

/-! ### The concrete syntax tree

A leaf carries its token kind, literal text, prefix (preceding
whitespace/comments), the column where its first character renders, and the
was_changed flag.  A composite node carries its grammar-symbol kind, its own
was_changed flag and its children.  lib2to3's changed() also propagates the
flag to ancestors; no code path of this fixer reads an ancestor's flag, so
the embedding records the flag only on the node a changed() call targets. -/

inductive PN where
  | leaf (typ : Nat) (val : String) (pfx : String) (col : Nat) (wasChanged : Bool)
  | node (typ : Nat) (wasChanged : Bool) (children : List PN)

/-- node.type. -/
def typOf : PN → Nat
  | .leaf t _ _ _ _ => t
  | .node t _ _ => t

/-- node.was_changed. -/
def wasChangedOf : PN → Bool
  | .leaf _ _ _ _ w => w
  | .node _ w _ => w

/-- node.children (a lib2to3 Leaf has an empty children list). -/
def childrenOf : PN → List PN
  | .leaf _ _ _ _ _ => []
  | .node _ _ cs => cs

/-- node.prefix: a leaf's own prefix; a composite node delegates to its
first child (empty for a childless node, as in lib2to3). -/
def getPfx : PN → String
  | .leaf _ _ p _ _ => p
  | .node _ _ [] => ""
  | .node _ _ (c :: _) => getPfx c

/-- node.prefix = ...: assignment also delegates to the first child. -/
def setPfx : PN → String → PN
  | .leaf t v _ c w, p => .leaf t v p c w
  | .node t w [], _ => .node t w []
  | .node t w (c :: cs), p => .node t w (setPfx c p :: cs)

/-- node.column: a leaf attribute; a composite node renders where its first
child does. -/
def getCol : PN → Nat
  | .leaf _ _ _ c _ => c
  | .node _ _ [] => 0
  | .node _ _ (c :: _) => getCol c

/-- node.changed(): set the was_changed flag of the targeted node. -/
def markCh : PN → PN
  | .leaf t v p c _ => .leaf t v p c true
  | .node t _ cs => .node t true cs

/-- The two-step mutation `x.prefix = x.prefix.strip(); x.changed()`. -/
def stripMark (c : PN) : PN :=
  markCh (setPfx c (pyStrip (getPfx c)))

mutual
/-- node.leaves(): the leaves of a subtree in document order. -/
def leavesOf : PN → List PN
  | .leaf t v p c w => [.leaf t v p c w]
  | .node _ _ cs => leavesList cs

def leavesList : List PN → List PN
  | [] => []
  | c :: cs => leavesOf c ++ leavesList cs
end

mutual
/-- leaf.replace([...]): replace the k-th leaf (0-based, document order) of
a subtree by a list of nodes, which become siblings at its position.  When
the subtree is itself that leaf the replacement list is returned whole. -/
def replLeaf : PN → Nat → List PN → List PN
  | .leaf _ _ _ _ _, 0, repl => repl
  | .leaf t v p c w, _ + 1, _ => [.leaf t v p c w]
  | .node t w cs, k, repl => [.node t w (replLeafList cs k repl)]

def replLeafList : List PN → Nat → List PN → List PN
  | [], _, _ => []
  | c :: cs, k, repl =>
    if k < (leavesOf c).length then replLeaf c k repl ++ cs
    else c :: replLeafList cs (k - (leavesOf c).length) repl
end

mutual
/-- leaf.prev_sibling of the k-th leaf of a subtree: the child immediately
before it in its immediate parent's children (none when it is a first
child; none when the subtree is the leaf itself, whose siblings lie outside
the subtree). -/
def prevSibIn : PN → Nat → Option PN
  | .leaf _ _ _ _ _, _ => none
  | .node _ _ cs, k => prevSibList cs k none

def prevSibList : List PN → Nat → Option PN → Option PN
  | [], _, _ => none
  | c :: cs, k, before =>
    if k < (leavesOf c).length then
      match c with
      | .leaf _ _ _ _ _ => before
      | .node _ _ _ => prevSibIn c k
    else prevSibList cs (k - (leavesOf c).length) (some c)
end

/-- lib2to3 equality of a node against `Leaf(t, v)`: leaves compare by
(type, value) only; a composite node never equals a Leaf. -/
def eqLeafTV (x : PN) (t : Nat) (v : String) : Bool :=
  match x with
  | .leaf t2 v2 _ _ _ => t2 == t && v2 == v
  | .node _ _ _ => false

/-- `x != LParen()` test from the parenthesize rules, negated. -/
def isLParenTV (x : PN) : Bool :=
  eqLeafTV x tokLPAR "("

/-- `prev_sibling == Leaf(token.DOT, '.')`: False for None and for
composite nodes, (type, value) comparison for leaves. -/
def eqDotLeaf : Option PN → Bool
  | some x => eqLeafTV x tokDOT "."
  | none => false

/-- Leaf(token.NEWLINE, '\n') as constructed at source line 140. -/
def nlLeaf : PN := .leaf tokNEWLINE "\n" "" 0 false

/-- Leaf(token.INDENT, s) as constructed at source line 140. -/
def indentLeaf (s : String) : PN := .leaf tokINDENT s "" 0 false

/-- LParen() from lib2to3 fixer_util, with an optional prefix applied. -/
def lparenLeaf (p : String) : PN := .leaf tokLPAR "(" p 0 false

/-- RParen() from lib2to3 fixer_util. -/
def rparenLeaf : PN := .leaf tokRPAR ")" "" 0 false

/-! ### The fixer -/

/-- Any line of the text longer than MAX_CHARS
(`any(len(line) > MAX_CHARS for line in ....split('\n'))`). -/
def anyLineGt (l : List Char) : Bool :=
  (splitNl l).any fun ln => decide (MAX_CHARS < ln.length)

/-- The fixer's match predicate (source lines 26-34): a NEWLINE or COLON
token matches when its column exceeds MAX_CHARS (and only then); any other
node matches when some line of its prefix exceeds MAX_CHARS. -/
def matchNode (node : PN) : Bool :=
  if typOf node == tokNEWLINE || typOf node == tokCOLON then
    decide (MAX_CHARS < getCol node)
  else anyLineGt (getPfx node).data

/-- Modelled from the spec: the three-way prefix splitter
(`tuplize_comments` from the package's utils module, which is not under
the source tree): leading material before the first comment line, the
comment-bearing line range itself, and the trailing material after the last
comment line (the newline separating the comment range from the trailing
material is dropped; fix_prefix re-adds it). -/
def firstHashIdx : List (List Char) → Nat → Option Nat
  | [], _ => none
  | l :: ls, i => if l.contains '#' then some i else firstHashIdx ls (i + 1)

def lastHashIdx (ls : List (List Char)) : Option Nat :=
  match firstHashIdx ls.reverse 0 with
  | none => none
  | some k => some (ls.length - 1 - k)

def tuplizeComments (pfx : List Char) : List Char × List Char × List Char :=
  let lines := splitNl pfx
  match firstHashIdx lines 0, lastHashIdx lines with
  | some i, some j =>
    (((lines.take i).map (fun l => l ++ ['\n'])).flatten,
     joinNl ((lines.drop i).take (j + 1 - i)),
     joinNl (lines.drop (j + 1)))
  | _, _ => (pfx, [], [])

/-- fix_prefix (source lines 50-78).  The node's prefix holds comment text;
re-flow it.  Raises (models) ValueError when the comment region has no '#',
AttributeError/IndexError when an inline comment has no usable previous
sibling. -/
def fixPrefix (node : PN) (prevSib : Option PN) : Except String PN :=
  let pfx := (getPfx node).data
  let tc := tuplizeComments pfx
  let comments := tc.2.1
  let allComments :=
    joinSp ((splitNl comments).map (fun l => pyLstripL (removeFirst '#' l)))
  let isInlineComment := !(pfx.contains '\n')
  match idxOf '#' comments with
  | none => .error "ValueError"
  | some idx0 =>
    let lvlE : Except String Nat :=
      if isInlineComment then
        match prevSib with
        | none => .error "AttributeError"
        | some ps =>
          match childrenOf ps with
          | [] => .error "IndexError"
          | c :: _ => .ok (getCol c)
      else .ok idx0
    match lvlE with
    | .error e => .error e
    | .ok lvl =>
      let indent : List Char := List.replicate lvl ' ' ++ ['#', ' ']
      let splitLines := wrapTextL MAX_CHARS indent indent allComments
      let resE : Except String (List (List Char) × List Char) :=
        if isInlineComment then
          match splitLines with
          | [] => .error "IndexError"
          | l0 :: rest => .ok (('\n' :: l0) :: rest, tc.2.2)
        else .ok (splitLines, '\n' :: tc.2.2)
      match resE with
      | .error e => .error e
      | .ok (lines2, after2) =>
        let newPfx := String.mk (tc.1 ++ joinNl lines2 ++ after2)
        if newPfx != getPfx node then .ok (markCh (setPfx node newPfx))
        else .ok node

/-- Modelled from the spec: the quote-delimiter extractor (`get_quotes`
from the package's utils module, not under the source tree): the opening
and closing delimiter of a string literal — a triple quote when present,
otherwise the first character. -/
def getQuotes (v : String) : String × String :=
  if List.isPrefixOf "'''".data v.data then ("'''", "'''")
  else if List.isPrefixOf "\"\"\"".data v.data then ("\"\"\"", "\"\"\"")
  else (String.mk (v.data.take 1), String.mk (v.data.take 1))

/-- The triple-quote test of source line 85
(`quote_start.count('\x22\x22\x22') or quote_start.count("'''")`, applied
to the extractor's output, which is the delimiter itself). -/
def tripleQuoted (qs : String) : Bool :=
  qs == "\"\"\"" || qs == "'''"

/-- The wrap width used by fix_docstring: MAX_CHARS minus the node's
column (source line 83), further reduced by the closing delimiter's length
when the literal is not triple-quoted (source line 92). -/
def docstringMaxLength (v : String) (c : Nat) : Int :=
  if tripleQuoted (getQuotes v).1 then (MAX_CHARS : Int) - c
  else ((MAX_CHARS : Int) - c) - ((getQuotes v).2.length : Int)

/-- fix_docstring (source lines 80-108): split an over-long string literal
into several STRING leaves joined by newline leaves. -/
def fixDocstring : PN → Except String (List PN)
  | .node _ _ _ => .error "AttributeError"
  | .leaf _ v _ c _ =>
    let qs := (getQuotes v).1
    let qe := (getQuotes v).2
    let maxLength := docstringMaxLength v c
    let triple := tripleQuoted qs
    let commentIndent : List Char :=
      if triple then List.replicate (4 + c) ' '
      else List.replicate (4 + c) ' ' ++ qs.data
    let v2 : List Char := if triple then v.data else '(' :: (v.data ++ [')'])
    if maxLength ≤ 0 then .error "ValueError"
    else
      let splitLines := wrapTextL maxLength.toNat [] commentIndent v2
      let splitLines := if triple then splitLines else closeLinesL qe.data splitLines
      match splitLines with
      | [] => .error "IndexError"
      | l0 :: rest =>
        .ok (.leaf tokSTRING (String.mk l0) "" 0 false ::
          (rest.map (fun l => [nlLeaf, PN.leaf tokSTRING (String.mk l) "" 0 false])).flatten)

/-- parenthesize_test (source lines 163-171). -/
def parenthesizeTest : PN → Except String PN
  | .leaf _ _ _ _ _ => .error "IndexError"
  | .node _ _ [] => .error "IndexError"
  | .node ty w (c0 :: rest) =>
    if isLParenTV c0 then .ok (.node ty w (c0 :: rest))
    else .ok (.node ty true (lparenLeaf "" :: stripMark c0 :: (rest ++ [rparenLeaf])))

/-- parenthesize_print_or_return_stmt (source lines 173-183). -/
def parenthesizePrintOrReturnStmt : PN → Except String PN
  | .node ty w (c0 :: c1 :: rest) =>
    if isLParenTV c1 then .ok (.node ty w (c0 :: c1 :: rest))
    else .ok (.node ty true (c0 :: lparenLeaf "" :: stripMark c1 :: (rest ++ [rparenLeaf])))
  | _ => .error "IndexError"

/-- parenthesize_import_stmt (source lines 185-197): wrap the last child's
own child list in parentheses, the opening parenthesis carrying a
single-space prefix. -/
def parenthesizeImportStmt : PN → Except String PN
  | .leaf _ _ _ _ _ => .error "IndexError"
  | .node ty w cs =>
    match cs.getLast? with
    | none => .error "IndexError"
    | some (.leaf _ _ _ _ _) => .error "IndexError"
    | some (.node _ _ []) => .error "IndexError"
    | some (.node ty2 _ (c0 :: rest)) =>
      if isLParenTV c0 then .ok (.node ty w cs)
      else
        .ok (.node ty w (cs.dropLast ++
          [.node ty2 true (lparenLeaf " " :: stripMark c0 :: (rest ++ [rparenLeaf]))]))

/-- parenthesize_expr_stmt (source lines 199-212): wrap children[2] (the
value node) in parentheses; accessing children[2] of the statement or
children[0] of a childless value raises IndexError. -/
def parenthesizeExprStmt : PN → Except String PN
  | .node ty w (c0 :: c1 :: PN.node vty vw (vc0 :: vrest) :: rest) =>
    if isLParenTV vc0 then .ok (.node ty w (c0 :: c1 :: PN.node vty vw (vc0 :: vrest) :: rest))
    else
      .ok (.node ty w (c0 :: c1 ::
        PN.node vty true (lparenLeaf " " :: stripMark vc0 :: (vrest ++ [rparenLeaf])) :: rest))
  | _ => .error "IndexError"

/-- parenthesize_call_stmt (source lines 214-225): skip a power-kind node
when the break is not on a dot-continuation; otherwise, unless children[0]
already equals LParen(), prepend '(' to children[0]'s prefix text and
append a closing-paren child. -/
def parenthesizeCallStmt (nodeToSplit : PN) (breakingOnFuncCall : Bool) : Except String PN :=
  if typOf nodeToSplit == symPower && !breakingOnFuncCall then .ok nodeToSplit
  else
    match nodeToSplit with
    | .leaf _ _ _ _ _ => .error "IndexError"
    | .node _ _ [] => .error "IndexError"
    | .node ty _ (c0 :: rest) =>
      if isLParenTV c0 then .ok (.node ty (wasChangedOf nodeToSplit) (c0 :: rest))
      else
        .ok (.node ty true
          (markCh (setPfx c0 (getPfx c0 ++ "(")) :: (rest ++ [rparenLeaf])))

/-- parenthesize_parent (source lines 147-161): dispatch on the subtree's
kind tag; unknown kinds (and the parameter-list kind) are a no-op. -/
def parenthesizeParent (nodeToSplit : PN) (breakingOnFuncCall : Bool) : Except String PN :=
  let t := typOf nodeToSplit
  if t == symPrintStmt || t == symReturnStmt then parenthesizePrintOrReturnStmt nodeToSplit
  else if t == symExprStmt then parenthesizeExprStmt nodeToSplit
  else if t == symPower || t == symAtom then parenthesizeCallStmt nodeToSplit breakingOnFuncCall
  else if t == symImportFrom then parenthesizeImportStmt nodeToSplit
  else if t == symOrTest || t == symAndTest || t == symNotTest || t == symTest
      || t == symArithExpr || t == symComparison then parenthesizeTest nodeToSplit
  else .ok nodeToSplit

/-- The pivot scan of fix_leaves (source lines 112-123): walk the leaves in
order; remember the index of the last leaf whose column is < MAX_CHARS,
stopping at the first leaf whose column is ≥ MAX_CHARS; count opening and
closing bracket tokens over the leaves consumed. -/
def pivotScan : List PN → Nat → Option Nat → Int → Option Nat × Int
  | [], _, acc, oc => (acc, oc)
  | l :: ls, i, acc, oc =>
    if getCol l < MAX_CHARS then
      pivotScan ls (i + 1) (some i)
        (oc + (if OPENING_TOKENS.contains (typOf l) then 1 else 0)
            - (if CLOSING_TOKENS.contains (typOf l) then 1 else 0))
    else (acc, oc)

/-- fix_leaves (source lines 110-145).  The indentation of the enclosing
block (lib2to3's find_indentation, an external lookup) is passed in as
`parentDepth`.  When no leaf sits before the limit the scan yields no
pivot and the source dereferences None (AttributeError).  When the whole
subtree is a single leaf that gets replaced, the subsequent
parenthesize_parent call acts on the detached token leaf, whose token kind
matches no grammar-symbol branch, so it is a no-op and is elided here. -/
def fixLeaves (nodeToSplit : PN) (parentDepth : String) : Except String (List PN) :=
  let ls := leavesOf nodeToSplit
  match pivotScan ls 0 none 0 with
  | (none, _) => .error "AttributeError"
  | (some k, openCount) =>
    match ls[k]? with
    | none => .error "AttributeError"
    | some pivot =>
      if wasChangedOf pivot then .ok [nodeToSplit]
      else
        let pivot2 := markCh (setPfx pivot (pyStrip (getPfx pivot)))
        let breakingOnFuncCall := eqDotLeaf (prevSibIn nodeToSplit k)
        let newIndent := "    " ++ parentDepth
        let replaced := replLeaf nodeToSplit k [nlLeaf, indentLeaf newIndent, pivot2]
        if openCount ≤ 0 then
          match replaced with
          | [r] =>
            match parenthesizeParent r breakingOnFuncCall with
            | .ok r2 => .ok [r2]
            | .error e => .error e
          | rs => .ok rs
        else .ok replaced

/-- The statement-fix half of transform (source lines 41-48): when the
node is a NEWLINE or COLON terminator whose column minus its current
prefix length exceeds MAX_CHARS, fix the previous sibling (docstring or
leaf split). -/
def transformSplitPhase (node1 : PN) (typ col : Nat) (prevSib : Option PN)
    (parentDepth : String) : Except String (PN × Option (List PN)) :=
  if (typ == tokNEWLINE || typ == tokCOLON)
      && decide ((MAX_CHARS : Int) < (col : Int) - ((getPfx node1).length : Int)) then
    match prevSib with
    | none => .ok (node1, none)
    | some nodeToSplit =>
      if typOf nodeToSplit == tokSTRING then
        match fixDocstring nodeToSplit with
        | .error e => .error e
        | .ok repl => .ok (node1, some repl)
      else
        match fixLeaves nodeToSplit parentDepth with
        | .error e => .error e
        | .ok repl => .ok (node1, some repl)
  else .ok (node1, none)

/-- transform (source lines 36-48).  The matched node's previous sibling
and the enclosing indentation are tree context passed in by the driver.
The result carries the (possibly prefix-fixed) node and, when a statement
fix ran, the node list that replaces the previous sibling.  Note the
split condition re-reads the prefix after fix_prefix may have rewritten
it, while the stored column is not recomputed. -/
def transform (node : PN) (prevSib : Option PN) (parentDepth : String) :
    Except String (PN × Option (List PN)) :=
  let pfx := (getPfx node).data
  let col := getCol node
  let needsPrefixFix :=
    anyLineGt pfx || (pfx.contains '#' && decide (MAX_CHARS < col + pfx.length))
  match (if needsPrefixFix then fixPrefix node prevSib else .ok node) with
  | .error e => .error e
  | .ok node1 => transformSplitPhase node1 (typOf node) col prevSib parentDepth

/-! ### Observations and comparison models -/

/-- Flatten a tree to its leaves' observable fields
(token kind, text, prefix, column, was_changed). -/
def obsT : PN → List (Nat × String × String × Nat × Bool)
  | .leaf t v p c w => [(t, v, p, c, w)]
  | .node _ _ cs => obsL cs
  where obsL : List PN → List (Nat × String × String × Nat × Bool)
  | [] => []
  | c :: cs => obsT c ++ obsL cs

/-- Observe a node-list-valued result: the flattened leaf observations. -/
def obsE : Except String (List PN) → Option (List (Nat × String × String × Nat × Bool))
  | .ok ts => some ((ts.map obsT).flatten)
  | .error _ => none

/-- Observe a single-node-valued result. -/
def obsE1 : Except String PN → Option (List (Nat × String × String × Nat × Bool))
  | .ok t => some (obsT t)
  | .error _ => none

/-- Whether a transform run performed a statement fix (returned a
replacement for the previous sibling). -/
def tookStatementFix : Except String (PN × Option (List PN)) → Bool
  | .ok (_, some _) => true
  | _ => false

/-- The string values of the STRING leaves of a node list, in order. -/
def stringVals : List PN → List String
  | [] => []
  | .leaf t v _ _ _ :: ns => if t == tokSTRING then v :: stringVals ns else stringVals ns
  | .node _ _ _ :: ns => stringVals ns

/-- The Statement Splitter as claim C3 words it: the leading whitespace
stripped is that of the token immediately AFTER the pivot, and the
line-break and continuation-indent tokens are inserted immediately after
the pivot (before that next token).  This is a comparison model built from
the claim's words, not a translation of the source. -/
def fixLeavesClaimed (nodeToSplit : PN) (parentDepth : String) : Except String (List PN) :=
  let ls := leavesOf nodeToSplit
  match pivotScan ls 0 none 0 with
  | (none, _) => .error "AttributeError"
  | (some k, _) =>
    match ls[k]? with
    | none => .error "AttributeError"
    | some pivot =>
      if wasChangedOf pivot then .ok [nodeToSplit]
      else
        match ls.get? (k + 1) with
        | none => .ok [nodeToSplit]
        | some nxt =>
          .ok (replLeaf nodeToSplit (k + 1)
            [nlLeaf, indentLeaf ("    " ++ parentDepth),
             markCh (setPfx nxt (pyStrip (getPfx nxt)))])

/-! ### Concrete trees used by counterexamples and witnesses -/

/-- An atom subtree [aaa] whose leaves all start before column 79. -/
def atomTree : PN :=
  .node symAtom false [.leaf tokLSQB "[" "" 60 false, .leaf tokNAME "aaa" "" 61 false,
    .leaf tokRSQB "]" " " 76 false]

/-- A three-leaf statement of unknown kind: pivot is the middle leaf. -/
def plainTree : PN :=
  .node 999 false [.leaf tokNAME "a" "" 0 false, .leaf tokNAME "b" " " 40 false,
    .leaf tokNAME "c" "  " 85 false]

/-- Like plainTree but with the pivot leaf already marked changed. -/
def plainTreeChanged : PN :=
  .node 999 false [.leaf tokNAME "a" "" 0 false, .leaf tokNAME "b" " " 40 true,
    .leaf tokNAME "c" "  " 85 false]

/-- from pkg import a, b — an import_from statement. -/
def importTree : PN :=
  .node symImportFrom false [.leaf tokNAME "from" "" 0 false, .leaf tokNAME "pkg" " " 5 false,
    .leaf tokNAME "import" " " 9 false,
    .node symImportAsNames false [.leaf tokNAME "a" " " 16 false, .leaf tokCOMMA "," "" 17 false,
      .leaf tokNAME "b" " " 19 false]]

/-- A power chain foo.bar whose leaves all start before column 79. -/
def powerChain : PN :=
  .node symPower false [.leaf tokNAME "foo" "" 0 false,
    .node symTrailer false [.leaf tokDOT "." "" 3 false, .leaf tokNAME "bar" "" 4 false]]

/-- A NEWLINE terminator at column 85 whose prefix is the inline comment
"#    xx": flagged by match only because of the prefix (85 - 7 = 78 ≤ 79). -/
def newlineWithComment : PN := .leaf tokNEWLINE "\n" "#    xx" 85 false

/-- A statement whose first token already sits past column 79. -/
def indentedStmt : PN :=
  .node symExprStmt false [.leaf tokNAME "x" "" 80 false, .leaf tokNEWLINE "\n" "" 85 false]

/-- A NEWLINE terminator far past the limit, empty prefix. -/
def farNewline : PN := .leaf tokNEWLINE "\n" "" 120 false

/-- x = y — an assignment whose right-hand side is a single token. -/
def assignSingleRhs : PN :=
  .node symExprStmt false [.leaf tokNAME "x" "" 0 false, .leaf tokEQUAL "=" " " 2 false,
    .leaf tokNAME "y" " " 4 false]

/-- A NEWLINE terminator at column 100, empty prefix. -/
def newline100 : PN := .leaf tokNEWLINE "\n" "" 100 false

/-- A node carrying an over-the-limit inline comment in its prefix. -/
def inlineCommentNode : PN := .leaf tokNAME "z" "# abc" 85 false

/-- A bare leaf to serve as a previous sibling with no children. -/
def bareLeaf : PN := .leaf tokNAME "w" "" 0 false

/-- A bracketed three-leaf statement: pivot is the middle leaf and the
break falls inside the bracket (open count 1). -/
def parenTree : PN :=
  .node 999 false [.leaf tokLPAR "(" "" 0 false, .leaf tokNAME "b" " " 40 false,
    .leaf tokNAME "c" "  " 85 false]

/-- A NEWLINE token at column 0 whose prefix holds one 80-character line. -/
def shortColLongPrefix : PN :=
  .leaf tokNEWLINE "\n" (String.mk (List.replicate 80 'x')) 0 false

/-! ### Helper lemmas -/

/-- A rule whose successful output is a fixed point is bind-idempotent. -/
theorem bind_idem_of (f : PN → Except String PN)
    (h : ∀ t r, f t = .ok r → f r = .ok r) :
    ∀ t, Except.bind (f t) f = f t := by
  intro t
  cases hf : f t with
  | error e => rfl
  | ok r => simpa [Except.bind, hf] using h t r hf

theorem parenthesizeTest_fix (t r : PN) (h : parenthesizeTest t = .ok r) :
    parenthesizeTest r = .ok r := by
  unfold parenthesizeTest at h
  split at h
  · simp at h
  · simp at h
  · rename_i ty w c0 rest
    split at h
    · rename_i hlp
      injection h with h2
      subst h2
      simp [parenthesizeTest, hlp]
    · injection h with h2
      subst h2
      simp [parenthesizeTest, isLParenTV, eqLeafTV, lparenLeaf]

theorem parenthesizePrintOrReturnStmt_fix (t r : PN)
    (h : parenthesizePrintOrReturnStmt t = .ok r) :
    parenthesizePrintOrReturnStmt r = .ok r := by
  unfold parenthesizePrintOrReturnStmt at h
  split at h
  · rename_i ty w c0 c1 rest
    split at h
    · rename_i hlp
      injection h with h2
      subst h2
      simp [parenthesizePrintOrReturnStmt, hlp]
    · injection h with h2
      subst h2
      simp [parenthesizePrintOrReturnStmt, isLParenTV, eqLeafTV, lparenLeaf]
  · simp at h

theorem parenthesizeExprStmt_fix (t r : PN) (h : parenthesizeExprStmt t = .ok r) :
    parenthesizeExprStmt r = .ok r := by
  unfold parenthesizeExprStmt at h
  split at h
  · rename_i ty w c0 c1 vty vw vc0 vrest rest
    split at h
    · rename_i hlp
      injection h with h2
      subst h2
      simp [parenthesizeExprStmt, hlp]
    · injection h with h2
      subst h2
      simp [parenthesizeExprStmt, isLParenTV, eqLeafTV, lparenLeaf]
  · simp at h

theorem parenthesizeImportStmt_fix (t r : PN) (h : parenthesizeImportStmt t = .ok r) :
    parenthesizeImportStmt r = .ok r := by
  unfold parenthesizeImportStmt at h
  split at h
  · simp at h
  · split at h
    · simp at h
    · simp at h
    · simp at h
    · rename_i ty w cs x ty2 w2 c0 rest heq
      split at h
      · rename_i hlp
        injection h with h2
        subst h2
        simp [parenthesizeImportStmt, heq, hlp]
      · injection h with h2
        subst h2
        simp [parenthesizeImportStmt, List.getLast?_concat, isLParenTV, eqLeafTV, lparenLeaf]

/-! ### Claim C2 -/

/-- Claim C2 counterexample: the call-statement wrap rule is not
idempotent.  On an atom subtree it records the inserted opening paren
inside the first child's prefix text, which its own children[0] != LParen()
check never detects, so a second application wraps the subtree again. -/
theorem parenthesizeCallStmtNotIdempotent :
    Except.bind (parenthesizeCallStmt atomTree false) (fun r => parenthesizeCallStmt r false) ≠
      parenthesizeCallStmt atomTree false := by
  intro h
  exact absurd (congrArg obsE1 h) (by decide)

/-- Claim C2 (amended): every parenthesization rule except the
call-expression rule is idempotent — parenthesize_test,
parenthesize_print_or_return_stmt, parenthesize_expr_stmt and
parenthesize_import_stmt detect the opening paren they inserted as the
relevant child, so re-running them is a no-op; the call-expression rule is
a (trivially idempotent) no-op only in its skip branch, a power-kind node
with the break not on a dot-continuation. -/
theorem parenthesizeRulesIdempotentExceptCall :
    (∀ t, Except.bind (parenthesizeTest t) parenthesizeTest = parenthesizeTest t) ∧
    (∀ t, Except.bind (parenthesizePrintOrReturnStmt t) parenthesizePrintOrReturnStmt =
      parenthesizePrintOrReturnStmt t) ∧
    (∀ t, Except.bind (parenthesizeExprStmt t) parenthesizeExprStmt = parenthesizeExprStmt t) ∧
    (∀ t, Except.bind (parenthesizeImportStmt t) parenthesizeImportStmt =
      parenthesizeImportStmt t) ∧
    (∀ w cs, parenthesizeCallStmt (.node symPower w cs) false = .ok (.node symPower w cs)) :=
  ⟨bind_idem_of _ parenthesizeTest_fix,
   bind_idem_of _ parenthesizePrintOrReturnStmt_fix,
   bind_idem_of _ parenthesizeExprStmt_fix,
   bind_idem_of _ parenthesizeImportStmt_fix,
   fun w cs => by simp [parenthesizeCallStmt, typOf]⟩

/-! ### Claim C4 -/

/-- Claim C4 counterexample: breaking an atom subtree at a point that is
not a dot-continuation (here after its closing bracket) still inserts
parentheses: the actual output wraps the atom, differing from the
splice-only output the claim predicts. -/
theorem atomParenthesizedDespiteNonDotBreak :
    fixLeaves atomTree "" = Except.ok [PN.node symAtom true
      [.leaf tokLSQB "[" "(" 60 true, .leaf tokNAME "aaa" "" 61 false, nlLeaf,
       indentLeaf "    ", .leaf tokRSQB "]" "" 76 true, rparenLeaf]] ∧
    obsE (fixLeaves atomTree "") ≠
      obsE (Except.ok [PN.node symAtom false
        [.leaf tokLSQB "[" "" 60 false, .leaf tokNAME "aaa" "" 61 false, nlLeaf,
         indentLeaf "    ", .leaf tokRSQB "]" "" 76 true]]) :=
  ⟨rfl, by decide⟩

/-- Claim C4 (amended): only a power-kind subtree skips parenthesization
when the break is not on a dot-continuation; a power-kind subtree broken on
a dot-continuation, and an atom-kind subtree broken anywhere, are wrapped
whenever the first child is not already an opening parenthesis (the paren
being written into the first child's prefix text). -/
theorem callStmtParenInsertionRule :
    (∀ w cs, parenthesizeCallStmt (.node symPower w cs) false = .ok (.node symPower w cs)) ∧
    (∀ w c0 rest, isLParenTV c0 = false →
      parenthesizeCallStmt (.node symPower w (c0 :: rest)) true =
        .ok (.node symPower true
          (markCh (setPfx c0 (getPfx c0 ++ "(")) :: (rest ++ [rparenLeaf])))) ∧
    (∀ b w c0 rest, isLParenTV c0 = false →
      parenthesizeCallStmt (.node symAtom w (c0 :: rest)) b =
        .ok (.node symAtom true
          (markCh (setPfx c0 (getPfx c0 ++ "(")) :: (rest ++ [rparenLeaf])))) := by
  refine ⟨fun w cs => by simp [parenthesizeCallStmt, typOf], ?_, ?_⟩
  · intro w c0 rest h
    simp [parenthesizeCallStmt, typOf, h]
  · intro b w c0 rest h
    simp [parenthesizeCallStmt, typOf, symAtom, symPower, h]

/-- Witness for the amended claim C4 at a concrete atom subtree. -/
theorem callStmtParenInsertionRuleWitness :
    parenthesizeCallStmt (.node symAtom false [.leaf tokLSQB "[" "" 60 false]) false =
      Except.ok (.node symAtom true [.leaf tokLSQB "[" "(" 60 true, rparenLeaf]) :=
  callStmtParenInsertionRule.2.2 false false (.leaf tokLSQB "[" "" 60 false) [] rfl

/-! ### Claim C8 -/

/-- Claim C8: when the pivot leaf selected by the scan is already marked
changed, fix_leaves returns without mutating the tree at all. -/
theorem fixLeavesNoopWhenPivotChanged (t : PN) (d : String) (k : Nat) (oc : Int) (pivot : PN)
    (hscan : pivotScan (leavesOf t) 0 none 0 = (some k, oc))
    (hp : (leavesOf t)[k]? = some pivot)
    (hch : wasChangedOf pivot = true) :
    fixLeaves t d = .ok [t] := by
  simp [fixLeaves, hscan, hp, hch]

/-- Witness for claim C8 at a concrete tree whose pivot is marked. -/
theorem fixLeavesNoopWhenPivotChangedWitness :
    fixLeaves plainTreeChanged "" = Except.ok [plainTreeChanged] :=
  fixLeavesNoopWhenPivotChanged plainTreeChanged "" 1 0
    (.leaf tokNAME "b" " " 40 true) rfl rfl rfl

/-! ### Claim C9 -/

/-- Claim C9: the import-statement rule wraps only the trailing
imported-names child list; the inserted opening parenthesis carries a
single-space prefix; and insertion happens only when that list's first
child is not already an opening parenthesis. -/
theorem importStmtWrapRule :
    (∀ ty w cs ty2 w2 c0 rest, isLParenTV c0 = false →
      parenthesizeImportStmt (.node ty w (cs ++ [.node ty2 w2 (c0 :: rest)])) =
        .ok (.node ty w (cs ++ [PN.node ty2 true
          (PN.leaf tokLPAR "(" " " 0 false :: stripMark c0 :: (rest ++ [rparenLeaf]))]))) ∧
    (∀ ty w cs ty2 w2 c0 rest, isLParenTV c0 = true →
      parenthesizeImportStmt (.node ty w (cs ++ [.node ty2 w2 (c0 :: rest)])) =
        .ok (.node ty w (cs ++ [.node ty2 w2 (c0 :: rest)]))) := by
  constructor
  · intro ty w cs ty2 w2 c0 rest h
    simp [parenthesizeImportStmt, List.getLast?_concat, List.dropLast_concat, h, lparenLeaf]
  · intro ty w cs ty2 w2 c0 rest h
    simp [parenthesizeImportStmt, List.getLast?_concat, h]

/-- Witness for claim C9 on a concrete import statement. -/
theorem importStmtWrapRuleWitness :
    parenthesizeImportStmt importTree = Except.ok (.node symImportFrom false
      [.leaf tokNAME "from" "" 0 false, .leaf tokNAME "pkg" " " 5 false,
       .leaf tokNAME "import" " " 9 false,
       .node symImportAsNames true
         [.leaf tokLPAR "(" " " 0 false, .leaf tokNAME "a" "" 16 true,
          .leaf tokCOMMA "," "" 17 false, .leaf tokNAME "b" " " 19 false, rparenLeaf]]) :=
  importStmtWrapRule.1 symImportFrom false
    [.leaf tokNAME "from" "" 0 false, .leaf tokNAME "pkg" " " 5 false,
     .leaf tokNAME "import" " " 9 false]
    symImportAsNames false (.leaf tokNAME "a" " " 16 false)
    [.leaf tokCOMMA "," "" 17 false, .leaf tokNAME "b" " " 19 false] rfl

/-! ### Claim C5 -/

/-- Claim C5 counterexample: transform raises rather than completing
normally when the statement before an over-long terminator has its first
token already at column 80 — the pivot scan finds no leaf before the limit
and the source then dereferences None (AttributeError). -/
theorem transformRaisesOnIndentedStatement :
    transform farNewline (some indentedStmt) "" = Except.error "AttributeError" := rfl

/-- Claim C5 (amended): transform is not exception-free.  It raises in
each of the three situations the claim names as completing normally: an
AttributeError when a statement's first token sits at or past column 79,
an IndexError when an over-long assignment's right-hand side is a single
token (the parenthesizer indexes into a childless leaf), and an
AttributeError (no previous sibling) or IndexError (leaf sibling) when an
over-long inline comment's preceding sibling is absent or a leaf. -/
theorem transformRaisesInEdgeCases :
    transform farNewline (some indentedStmt) "" = Except.error "AttributeError" ∧
    transform newline100 (some assignSingleRhs) "" = Except.error "IndexError" ∧
    transform inlineCommentNode none "" = Except.error "AttributeError" ∧
    transform inlineCommentNode (some bareLeaf) "" = Except.error "IndexError" :=
  ⟨rfl, rfl, rfl, rfl⟩

/-! ### Claim C6 -/

/-- Claim C6 counterexample: a NEWLINE token at column 0 whose prefix
holds an 80-character line.  The claimed if-and-only-if fails: the prefix
disjunct holds, yet match returns false, because for NEWLINE/COLON tokens
the source never examines the prefix. -/
theorem matchIffFailsOnTerminatorWithLongPrefix :
    ¬ (matchNode shortColLongPrefix = true ↔
      ((typOf shortColLongPrefix = tokNEWLINE ∨ typOf shortColLongPrefix = tokCOLON) ∧
        MAX_CHARS < getCol shortColLongPrefix) ∨
      anyLineGt (getPfx shortColLongPrefix).data = true) := by decide

/-- Claim C6 (amended): match returns true iff the node is a NEWLINE or
COLON token whose column exceeds MAX_CHARS, or the node is NOT a
NEWLINE/COLON token and some line of its prefix exceeds MAX_CHARS; the
prefix test applies only to non-terminator nodes. -/
theorem matchCharacterization (n : PN) :
    matchNode n = true ↔
      ((typOf n = tokNEWLINE ∨ typOf n = tokCOLON) ∧ MAX_CHARS < getCol n) ∨
      (¬(typOf n = tokNEWLINE ∨ typOf n = tokCOLON) ∧ anyLineGt (getPfx n).data = true) := by
  by_cases h1 : typOf n = tokNEWLINE
  · simp [matchNode, h1, tokNEWLINE, tokCOLON]
  · by_cases h2 : typOf n = tokCOLON
    · simp [matchNode, h1, h2, tokNEWLINE, tokCOLON]
    · simp [matchNode, h1, h2]

/-! ### Claim C10 -/

/-- Claim C10 counterexample: a NEWLINE terminator at column 85 whose
inline-comment prefix has length 7, so match flags it solely because the
prefix pushes its column past 79 (85 - 7 = 78 ≤ 79); yet transform first
rewrites the prefix (to the shorter moved-to-next-line comment), re-reads
it, finds 85 minus the new length beyond the limit, and performs a
statement split. -/
theorem prefixFlaggedTerminatorStillSplit :
    matchNode newlineWithComment = true ∧
    (getCol newlineWithComment : Int) - ((getPfx newlineWithComment).length : Int) ≤
      (MAX_CHARS : Int) ∧
    tookStatementFix (transform newlineWithComment (some powerChain) "") = true :=
  ⟨rfl, by decide, by decide⟩

/-- Claim C10 (amended): transform performs a statement fix on a NEWLINE
or COLON node only when the node's column minus the length of its current
prefix — the prefix as it stands after any prefix fix in the same call —
exceeds 79; a terminator flagged only because of its original prefix can
still be split when the prefix fix shortens that prefix. -/
theorem transformSplitPhase_inv (node1 : PN) (typ col : Nat) (ps : Option PN) (d : String)
    (n1 : PN) (r : List PN)
    (h : transformSplitPhase node1 typ col ps d = .ok (n1, some r)) :
    (typ = tokNEWLINE ∨ typ = tokCOLON) ∧
    (MAX_CHARS : Int) < (col : Int) - ((getPfx node1).length : Int) ∧ n1 = node1 := by
  unfold transformSplitPhase at h
  split at h
  · rename_i hcond
    rw [Bool.and_eq_true, Bool.or_eq_true] at hcond
    obtain ⟨hty, hlen⟩ := hcond
    refine ⟨?_, of_decide_eq_true hlen, ?_⟩
    · rcases hty with hty | hty
      · exact Or.inl (eq_of_beq hty)
      · exact Or.inr (eq_of_beq hty)
    · split at h
      · simp at h
      · split at h
        · split at h
          · simp at h
          · injection h with h2
            exact (congrArg Prod.fst h2).symm
        · split at h
          · simp at h
          · injection h with h2
            exact (congrArg Prod.fst h2).symm
  · simp at h

theorem statementFixOnlyWhenBeyondLimit (node : PN) (ps : Option PN) (d : String)
    (n1 : PN) (r : List PN)
    (h : transform node ps d = .ok (n1, some r)) :
    (typOf node = tokNEWLINE ∨ typOf node = tokCOLON) ∧
    (MAX_CHARS : Int) < (getCol node : Int) - ((getPfx n1).length : Int) := by
  unfold transform at h
  simp only [] at h
  split at h
  · simp at h
  · rename_i node1 heq
    obtain ⟨hty, hlen, hn1⟩ :=
      transformSplitPhase_inv node1 (typOf node) (getCol node) ps d n1 r h
    subst hn1
    exact ⟨hty, hlen⟩

/-- Witness for the amended claim C10: a concrete run that does perform a
statement fix, at which the necessary condition holds. -/
theorem statementFixOnlyWhenBeyondLimitWitness :
    (typOf newline100 = tokNEWLINE ∨ typOf newline100 = tokCOLON) ∧
    (MAX_CHARS : Int) < (getCol newline100 : Int) - ((getPfx newline100).length : Int) :=
  statementFixOnlyWhenBeyondLimit newline100 (some powerChain) "" newline100
    [PN.node symPower true [.leaf tokNAME "foo" "(" 0 true,
      .node symTrailer false [.leaf tokDOT "." "" 3 false, nlLeaf, indentLeaf "    ",
        .leaf tokNAME "bar" "" 4 true], rparenLeaf]] rfl

/-! ### Claim C3 -/

theorem leavesList_append (l1 l2 : List PN) :
    leavesList (l1 ++ l2) = leavesList l1 ++ leavesList l2 := by
  induction l1 with
  | nil => simp [leavesList]
  | cons c cs ih => simp [leavesList, ih]

mutual
/-- Replacing the k-th leaf of a subtree splices the replacement's leaves
into the leaf sequence at position k. -/
theorem spliceLeaf : ∀ (t : PN) (k : Nat) (repl : List PN), k < (leavesOf t).length →
    leavesList (replLeaf t k repl) =
      (leavesOf t).take k ++ leavesList repl ++ (leavesOf t).drop (k + 1)
  | .leaf a b c d e, k, repl, h => by
    simp only [leavesOf, List.length_singleton] at h
    have hk0 : k = 0 := by omega
    subst hk0
    simp [replLeaf, leavesOf, leavesList]
  | .node ty w cs, k, repl, h => by
    have h2 : k < (leavesList cs).length := by simpa [leavesOf] using h
    have ih := spliceList cs k repl h2
    simp [replLeaf, leavesOf, leavesList, ih]

theorem spliceList : ∀ (cs : List PN) (k : Nat) (repl : List PN),
    k < (leavesList cs).length →
    leavesList (replLeafList cs k repl) =
      (leavesList cs).take k ++ leavesList repl ++ (leavesList cs).drop (k + 1)
  | [], k, repl, h => by simp [leavesList] at h
  | c :: cs, k, repl, h => by
    by_cases hk : k < (leavesOf c).length
    · have ih := spliceLeaf c k repl hk
      simp only [replLeafList, hk, if_true, leavesList, leavesList_append, ih]
      rw [List.take_append_eq_append_take, List.drop_append_eq_append_drop]
      have e1 : k - (leavesOf c).length = 0 := by omega
      have e2 : k + 1 - (leavesOf c).length = 0 := by omega
      simp [e1, e2, List.append_assoc]
    · have hk2 : k - (leavesOf c).length < (leavesList cs).length := by
        have hlen : (leavesList (c :: cs)).length =
            (leavesOf c).length + (leavesList cs).length := by
          simp [leavesList]
        rw [hlen] at h
        omega
      have ih := spliceList cs (k - (leavesOf c).length) repl hk2
      simp only [replLeafList, hk, if_false, leavesList, leavesList_append, ih]
      rw [List.take_append_eq_append_take, List.drop_append_eq_append_drop]
      have e1 : (leavesOf c).length ≤ k := Nat.le_of_not_lt hk
      have e2 : (leavesOf c).length ≤ k + 1 := by omega
      have e3 : k + 1 - (leavesOf c).length = (k - (leavesOf c).length) + 1 := by omega
      rw [List.take_of_length_le e1, List.drop_eq_nil_of_le e2, e3]
      simp [List.append_assoc]
end

/-- Claim C3 counterexample: on a concrete subtree the Statement Splitter's
output differs from the output the claim describes (stripping and breaking
at the token after the pivot): the source strips the pivot's own prefix
and inserts the break tokens immediately before the pivot. -/
theorem splitterBreaksBeforePivotNotAfter :
    obsE (fixLeaves plainTree "") ≠ obsE (fixLeavesClaimed plainTree "") := by decide

/-- Claim C3 (amended): the pivot is the last token whose column is < 79
(scanning stops at the first token at or past 79, as claimed), but the
leading whitespace stripped is the pivot's OWN prefix, and the line-break
and continuation-indent tokens are inserted immediately BEFORE the pivot,
so the pivot itself becomes the first token of the new physical line
(after the indent token).  Stated for a break inside brackets
(open count > 0), where no parenthesization follows. -/
theorem fixLeavesSplicesBeforePivot (t : PN) (d : String) (k : Nat) (oc : Int)
    (a : Nat) (v p : String) (c : Nat)
    (hscan : pivotScan (leavesOf t) 0 none 0 = (some k, oc))
    (hp : (leavesOf t)[k]? = some (.leaf a v p c false))
    (hoc : 0 < oc) :
    Except.map leavesList (fixLeaves t d) =
      .ok ((leavesOf t).take k ++
        [nlLeaf, indentLeaf ("    " ++ d), PN.leaf a v (pyStrip p) c true] ++
        (leavesOf t).drop (k + 1)) := by
  have hk : k < (leavesOf t).length := by
    by_contra hge
    rw [List.getElem?_eq_none (Nat.le_of_not_lt hge)] at hp
    exact Option.noConfusion hp
  have key := spliceLeaf t k
    [nlLeaf, indentLeaf ("    " ++ d), PN.leaf a v (pyStrip p) c true] hk
  have hrepl : leavesList [nlLeaf, indentLeaf ("    " ++ d),
      PN.leaf a v (pyStrip p) c true] =
      [nlLeaf, indentLeaf ("    " ++ d), PN.leaf a v (pyStrip p) c true] := by
    simp [leavesList, leavesOf, nlLeaf, indentLeaf]
  rw [hrepl] at key
  have hoc' : ¬ (oc ≤ 0) := by omega
  unfold fixLeaves
  simp only [hscan, hp, wasChangedOf, Bool.false_eq_true, if_false, markCh, setPfx, getPfx,
    if_neg hoc']
  exact congrArg Except.ok key

/-- Witness for the amended claim C3: a concrete splice inside brackets. -/
theorem fixLeavesSplicesBeforePivotWitness :
    Except.map leavesList (fixLeaves parenTree "") =
      Except.ok [PN.leaf tokLPAR "(" "" 0 false, nlLeaf, indentLeaf "    ",
        PN.leaf tokNAME "b" "" 40 true, PN.leaf tokNAME "c" "  " 85 false] :=
  fixLeavesSplicesBeforePivot parenTree "" 1 1 tokNAME "b" " " 40 rfl rfl (by decide)

/-! ### Claim C1 -/

theorem sumLens_cons (w : List Char) (ws : List (List Char)) :
    sumLens (w :: ws) = w.length + sumLens ws := by
  simp [sumLens]

theorem sumLens_reverse (ws : List (List Char)) : sumLens ws.reverse = sumLens ws := by
  unfold sumLens
  rw [List.map_reverse]
  exact (List.reverse_perm _).sum_eq

theorem lineLen_reverse (ind : Nat) (l : List (List Char)) :
    lineLen ind l.reverse = lineLen ind l := by
  simp [lineLen, sumLens_reverse]

theorem le_sumLens_of_mem (w : List Char) (ws : List (List Char)) (h : w ∈ ws) :
    w.length ≤ sumLens ws := by
  induction ws with
  | nil => simp at h
  | cons x xs ih =>
    rcases List.mem_cons.mp h with rfl | h2
    · rw [sumLens_cons]
      exact Nat.le_add_right _ _
    · have := ih h2
      rw [sumLens_cons]
      omega

/-- The wrapper never splits or drops a word: the concatenation of the
produced chunks is the input word list. -/
theorem wrapChunksAux_flatten (width subLen : Nat) :
    ∀ (ws cur : List (List Char)) (curLen : Nat),
      (wrapChunksAux width subLen ws cur curLen).flatten = cur.reverse ++ ws := by
  intro ws
  induction ws with
  | nil => intro cur curLen; simp [wrapChunksAux]
  | cons w ws ih =>
    intro cur curLen
    unfold wrapChunksAux
    by_cases hc : cur.isEmpty = true
    · rw [if_pos hc]
      rw [List.isEmpty_iff] at hc
      subst hc
      simp [ih]
    · rw [if_neg hc]
      by_cases hfit : curLen + 1 + w.length ≤ width
      · rw [if_pos hfit]
        simp [ih]
      · rw [if_neg hfit]
        simp [ih]

/-- Every produced chunk is a nonempty word list (given a nonempty start). -/
theorem wrapChunksAux_ne_nil (width subLen : Nat) :
    ∀ (ws cur : List (List Char)) (curLen : Nat), (cur = [] → ws ≠ []) →
      ∀ l ∈ wrapChunksAux width subLen ws cur curLen, l ≠ [] := by
  intro ws
  induction ws with
  | nil =>
    intro cur curLen hne l hl
    have hcur : cur ≠ [] := fun h => (hne h) rfl
    simp [wrapChunksAux] at hl
    subst hl
    simpa using hcur
  | cons w ws ih =>
    intro cur curLen hne l hl
    unfold wrapChunksAux at hl
    by_cases hc : cur.isEmpty = true
    · rw [if_pos hc] at hl
      exact ih [w] _ (fun h => by simp at h) l hl
    · rw [if_neg hc] at hl
      by_cases hfit : curLen + 1 + w.length ≤ width
      · rw [if_pos hfit] at hl
        exact ih (w :: cur) _ (fun h => by simp at h) l hl
      · rw [if_neg hfit] at hl
        rcases List.mem_cons.mp hl with rfl | hl2
        · simp only [ne_eq, List.reverse_eq_nil_iff]
          exact fun h => hc (by simp [h])
        · exact ih [w] _ (fun h => by simp at h) l hl2

/-- Width conformance: every produced chunk holding two or more words
renders within the width (the first with the initial indent, the rest with
the subsequent indent). -/
theorem wrapChunksAux_fit (width subLen : Nat) :
    ∀ (ws cur : List (List Char)) (curLen c0 : Nat),
      (cur = [] → curLen = c0) →
      (cur ≠ [] → curLen = lineLen c0 cur) →
      (2 ≤ cur.length → curLen ≤ width) →
      ∃ r0 rest, wrapChunksAux width subLen ws cur curLen = r0 :: rest ∧
        (2 ≤ r0.length → lineLen c0 r0 ≤ width) ∧
        (∀ l ∈ rest, 2 ≤ l.length → lineLen subLen l ≤ width) := by
  intro ws
  induction ws with
  | nil =>
    intro cur curLen c0 h1 h2 h3
    refine ⟨cur.reverse, [], by simp [wrapChunksAux], ?_, by simp⟩
    intro hlen
    rw [lineLen_reverse]
    have hcur : cur ≠ [] := by
      intro h
      subst h
      simp at hlen
    rw [← h2 hcur]
    exact h3 (by simpa using hlen)
  | cons w ws ih =>
    intro cur curLen c0 h1 h2 h3
    unfold wrapChunksAux
    by_cases hc : cur.isEmpty = true
    · rw [if_pos hc]
      rw [List.isEmpty_iff] at hc
      subst hc
      refine ih [w] (curLen + w.length) c0 (by simp) ?_ (by simp)
      intro _
      have hcc := h1 rfl
      simp [lineLen, sumLens_cons, sumLens]
      omega
    · rw [if_neg hc]
      have hcur : cur ≠ [] := fun h => hc (by simp [h])
      by_cases hfit : curLen + 1 + w.length ≤ width
      · rw [if_pos hfit]
        refine ih (w :: cur) (curLen + 1 + w.length) c0 (by simp) ?_ ?_
        · intro _
          have hinv := h2 hcur
          have hlc : 0 < cur.length := List.length_pos.mpr hcur
          simp only [lineLen, sumLens_cons, List.length_cons] at hinv ⊢
          omega
        · intro _
          exact hfit
      · rw [if_neg hfit]
        obtain ⟨r0, rest, heq, hr0, hrest⟩ :=
          ih [w] (subLen + w.length) subLen (by simp)
            (by
              intro _
              simp [lineLen, sumLens_cons, sumLens])
            (by simp)
        refine ⟨cur.reverse, r0 :: rest, by rw [heq], ?_, ?_⟩
        · intro hlen
          rw [lineLen_reverse, ← h2 hcur]
          exact h3 (by simpa using hlen)
        · intro l hl
          rcases List.mem_cons.mp hl with rfl | hl2
          · exact hr0
          · exact hrest l hl2

/-- A chunk obeying the width bound that contains an over-wide word is
that word alone. -/
theorem alone_of_fit (width ind : Nat) (l : List (List Char))
    (hfit : 2 ≤ l.length → lineLen ind l ≤ width) :
    ∀ w ∈ l, width < ind + w.length → l = [w] := by
  intro w hw hbig
  match l, hw with
  | [x], hw =>
    have hx : w = x := by simpa using hw
    subst hx
    rfl
  | x :: y :: rest, hw =>
    exfalso
    have hlen2 : (x :: y :: rest).length = rest.length + 2 := by simp
    have hle := hfit (by omega)
    have hmem := le_sumLens_of_mem w _ hw
    unfold lineLen at hle
    omega

/-- Claim C1: the text wrapping used by the engine never breaks inside a
word.  For every width, indent pair and body text: the concatenation of
the produced chunks is exactly the word list of the text (no word is ever
split across lines or truncated), and any word that together with its
line's indent exceeds the width is emitted as a line of its own
(over-length), both on the first line (initial indent) and on
continuation lines (subsequent indent). -/
theorem textWrapperNeverBreaksWords (width : Nat) (ini sub : List Char) (text : List Char) :
    (wrapChunksAux width sub.length (splitWordsL text) [] ini.length).flatten =
      splitWordsL text ∧
    ∀ r0 rest,
      wrapChunksAux width sub.length (splitWordsL text) [] ini.length = r0 :: rest →
      (∀ w ∈ r0, width < ini.length + w.length → r0 = [w]) ∧
      (∀ l ∈ rest, ∀ w ∈ l, width < sub.length + w.length → l = [w]) := by
  constructor
  · simpa using wrapChunksAux_flatten width sub.length (splitWordsL text) [] ini.length
  · obtain ⟨r0', rest', heq, h1, h2⟩ :=
      wrapChunksAux_fit width sub.length (splitWordsL text) [] ini.length ini.length
        (fun _ => rfl) (fun h => absurd rfl h) (by simp)
    intro r0 rest hr
    rw [hr] at heq
    injection heq with e1 e2
    subst e1
    subst e2
    exact ⟨alone_of_fit width ini.length r0 h1,
      fun l hl => alone_of_fit width sub.length l (h2 l hl)⟩

/-- Witness for claim C1: wrapping "abcde fg" at width 3 keeps both words
whole, and the over-wide word "abcde" sits alone on its line. -/
theorem textWrapperNeverBreaksWordsWitness :
    (wrapChunksAux 3 0 (splitWordsL "abcde fg".data) [] 0).flatten =
      splitWordsL "abcde fg".data ∧
    [['a', 'b', 'c', 'd', 'e']] = [(['a', 'b', 'c', 'd', 'e'] : List Char)] := by
  refine ⟨(textWrapperNeverBreaksWords 3 [] [] "abcde fg".data).1, ?_⟩
  exact ((textWrapperNeverBreaksWords 3 [] [] "abcde fg".data).2
    [['a', 'b', 'c', 'd', 'e']] [[['f', 'g']]] (by decide)).1
    ['a', 'b', 'c', 'd', 'e'] (by decide) (by decide)

/-! ### Claim C7 -/

theorem splitWordsAux_acc_head :
    ∀ (l acc : List Char), acc ≠ [] →
      ∃ w ws, splitWordsAux l acc = (acc.reverse ++ w) :: ws := by
  intro l
  induction l with
  | nil =>
    intro acc hacc
    refine ⟨[], [], ?_⟩
    simp [splitWordsAux, hacc]
  | cons c cs ih =>
    intro acc hacc
    unfold splitWordsAux
    by_cases hc : isPySpace c = true
    · rw [if_pos hc]
      have hne : acc.isEmpty = false := by
        rw [Bool.eq_false_iff, ne_eq, List.isEmpty_iff]
        exact hacc
      rw [hne]
      exact ⟨[], splitWordsAux cs [], by simp⟩
    · rw [if_neg hc]
      obtain ⟨w, ws, hw⟩ := ih (c :: acc) (by simp)
      refine ⟨c :: w, ws, ?_⟩
      rw [hw]
      simp

theorem splitWordsL_cons_head (c : Char) (l : List Char) (hc : isPySpace c = false) :
    ∃ w ws, splitWordsL (c :: l) = (c :: w) :: ws := by
  unfold splitWordsL splitWordsAux
  rw [if_neg (by simp [hc])]
  obtain ⟨w, ws, hw⟩ := splitWordsAux_acc_head l [c] (by simp)
  exact ⟨w, ws, by simpa using hw⟩

theorem splitWordsAux_concat_last (c : Char) (hc : isPySpace c = false) :
    ∀ (l acc : List Char), ∃ ws w, splitWordsAux (l ++ [c]) acc = ws ++ [w] ∧
      w.getLast? = some c := by
  intro l
  induction l with
  | nil =>
    intro acc
    refine ⟨[], (c :: acc).reverse, ?_, ?_⟩
    · simp [splitWordsAux, hc]
    · simp
  | cons d l' ih =>
    intro acc
    rw [List.cons_append]
    unfold splitWordsAux
    by_cases hd : isPySpace d = true
    · rw [if_pos hd]
      by_cases hacc : acc.isEmpty = true
      · rw [if_pos hacc]
        exact ih []
      · rw [if_neg hacc]
        obtain ⟨ws, w, hw, hlast⟩ := ih []
        exact ⟨acc.reverse :: ws, w, by rw [hw]; rfl, hlast⟩
    · rw [if_neg hd]
      exact ih (d :: acc)

theorem flatten_getLast_of {α : Type} :
    ∀ (r : List (List α)) (lc : List α), r.getLast? = some lc → lc ≠ [] →
      r.flatten.getLast? = lc.getLast? := by
  intro r
  induction r with
  | nil => intro lc h _; simp at h
  | cons l r' ih =>
    intro lc h hne
    cases r' with
    | nil =>
      simp at h
      subst h
      simp
    | cons l2 r'' =>
      rw [List.getLast?_cons_cons] at h
      have hrec := ih lc h hne
      have hflne : (l2 :: r'').flatten ≠ [] := by
        intro hnil
        rw [hnil] at hrec
        simp only [List.getLast?_nil] at hrec
        exact hne (List.getLast?_eq_none_iff.mp hrec.symm)
      rw [List.flatten_cons, List.getLast?_append_of_ne_nil _ hflne]
      exact hrec

theorem map_dropLast' {α β : Type} (f : α → β) :
    ∀ l : List α, (l.map f).dropLast = l.dropLast.map f
  | [] => rfl
  | [_] => rfl
  | a :: b :: t => by
    simp only [List.map_cons, List.dropLast_cons₂]
    rw [← List.map_cons f b t, map_dropLast' f (b :: t)]

theorem closeLinesL_dropLast (qe : List Char) :
    ∀ ls, (closeLinesL qe ls).dropLast = ls.dropLast.map (· ++ qe)
  | [] => rfl
  | [_] => rfl
  | l :: l2 :: ls => by
    have h2 : closeLinesL qe (l2 :: ls) ≠ [] := by
      cases ls <;> simp [closeLinesL]
    rw [show closeLinesL qe (l :: l2 :: ls) = (l ++ qe) :: closeLinesL qe (l2 :: ls) from rfl]
    rw [List.dropLast_cons_of_ne_nil h2, closeLinesL_dropLast qe (l2 :: ls)]
    simp

theorem closeLinesL_getLast? (qe : List Char) :
    ∀ ls, (closeLinesL qe ls).getLast? = ls.getLast?
  | [] => rfl
  | [_] => rfl
  | l :: l2 :: ls => by
    rw [show closeLinesL qe (l :: l2 :: ls) = (l ++ qe) :: closeLinesL qe (l2 :: ls) from rfl]
    rw [List.getLast?_cons, closeLinesL_getLast? qe (l2 :: ls), List.getLast?_cons_cons]
    cases hg : (l2 :: ls).getLast? with
    | none =>
      rw [List.getLast?_eq_none_iff] at hg
      exact absurd hg (by simp)
    | some x => rfl

theorem joinSp_head (w : List Char) (ws : List (List Char)) :
    ∃ t, joinSp (w :: ws) = w ++ t := by
  cases ws with
  | nil => exact ⟨[], by simp [joinSp]⟩
  | cons v vs => exact ⟨' ' :: joinSp (v :: vs), rfl⟩

theorem joinSp_getLast? :
    ∀ (ws : List (List Char)) (w : List Char), ws.getLast? = some w → w ≠ [] →
      (joinSp ws).getLast? = w.getLast?
  | [], _, h, _ => by simp at h
  | [v], w, h, hne => by
    simp at h
    subst h
    rfl
  | v :: v2 :: vs, w, h, hne => by
    rw [List.getLast?_cons_cons] at h
    have hrec := joinSp_getLast? (v2 :: vs) w h hne
    rw [show joinSp (v :: v2 :: vs) = v ++ ' ' :: joinSp (v2 :: vs) from rfl]
    rw [List.getLast?_append_of_ne_nil _ (by simp)]
    rw [List.getLast?_cons, hrec]
    cases hg : w.getLast? with
    | none => exact absurd (List.getLast?_eq_none_iff.mp hg) hne
    | some x => rfl

theorem renderChunks_getLast (ini sub : List Char) (r0 : List (List Char))
    (rest : List (List (List Char))) (lc : List (List Char))
    (h : (r0 :: rest).getLast? = some lc) :
    ∃ pre, (renderChunks ini sub (r0 :: rest)).getLast? = some (pre ++ joinSp lc) := by
  cases rest with
  | nil =>
    simp at h
    subst h
    exact ⟨ini, by simp [renderChunks]⟩
  | cons r1 rs =>
    rw [List.getLast?_cons_cons] at h
    refine ⟨sub, ?_⟩
    rw [show renderChunks ini sub (r0 :: r1 :: rs) =
      (ini ++ joinSp r0) :: (r1 :: rs).map (fun l => sub ++ joinSp l) from rfl]
    have hmne : (r1 :: rs).map (fun l => sub ++ joinSp l) ≠ [] := by simp
    rw [List.getLast?_cons, List.getLast?_map, h]
    simp

theorem stringVals_pairs :
    ∀ rest : List (List Char),
      stringVals ((rest.map
        (fun l => [nlLeaf, PN.leaf tokSTRING (String.mk l) "" 0 false])).flatten) =
        rest.map String.mk
  | [] => rfl
  | l :: rest => by
    rw [List.map_cons, List.flatten_cons]
    rw [show ([nlLeaf, PN.leaf tokSTRING (String.mk l) "" 0 false] ++
      (rest.map (fun l => [nlLeaf, PN.leaf tokSTRING (String.mk l) "" 0 false])).flatten) =
      nlLeaf :: PN.leaf tokSTRING (String.mk l) "" 0 false ::
      (rest.map (fun l => [nlLeaf, PN.leaf tokSTRING (String.mk l) "" 0 false])).flatten from rfl]
    rw [show stringVals (nlLeaf :: PN.leaf tokSTRING (String.mk l) "" 0 false ::
      (rest.map (fun l => [nlLeaf, PN.leaf tokSTRING (String.mk l) "" 0 false])).flatten) =
      stringVals (PN.leaf tokSTRING (String.mk l) "" 0 false ::
      (rest.map (fun l => [nlLeaf, PN.leaf tokSTRING (String.mk l) "" 0 false])).flatten) from by
        simp [stringVals, nlLeaf, tokNEWLINE, tokSTRING]]
    rw [show stringVals (PN.leaf tokSTRING (String.mk l) "" 0 false ::
      (rest.map (fun l => [nlLeaf, PN.leaf tokSTRING (String.mk l) "" 0 false])).flatten) =
      String.mk l :: stringVals
      ((rest.map (fun l => [nlLeaf, PN.leaf tokSTRING (String.mk l) "" 0 false])).flatten) from by
        simp [stringVals]]
    rw [stringVals_pairs rest]
    simp

theorem stringVals_build (l0 : List Char) (rest : List (List Char)) :
    stringVals (.leaf tokSTRING (String.mk l0) "" 0 false ::
      (rest.map (fun l => [nlLeaf, PN.leaf tokSTRING (String.mk l) "" 0 false])).flatten) =
      (l0 :: rest).map String.mk := by
  rw [show stringVals (.leaf tokSTRING (String.mk l0) "" 0 false ::
    (rest.map (fun l => [nlLeaf, PN.leaf tokSTRING (String.mk l) "" 0 false])).flatten) =
    String.mk l0 :: stringVals
    ((rest.map (fun l => [nlLeaf, PN.leaf tokSTRING (String.mk l) "" 0 false])).flatten) from by
      simp [stringVals]]
  rw [stringVals_pairs rest]
  simp

/-- Wrapping a parenthesized text: the first produced line starts with the
opening parenthesis and the last produced line ends with the closing one. -/
theorem wrapTextL_paren (width : Nat) (sub : List Char) (body : List Char) :
    ∃ x0 xs, wrapTextL width [] sub ('(' :: (body ++ [')'])) = x0 :: xs ∧
      (∃ t, x0 = '(' :: t) ∧
      (∃ xl, (x0 :: xs).getLast? = some xl ∧ xl.getLast? = some ')') := by
  obtain ⟨w1, ws', hsplit⟩ := splitWordsL_cons_head '(' (body ++ [')']) (by decide)
  obtain ⟨wsA, wlast, hA, hAlast⟩ := splitWordsAux_concat_last ')' (by decide) ('(' :: body) []
  have hA' : splitWordsL ('(' :: (body ++ [')'])) = wsA ++ [wlast] := hA
  have hwl : (splitWordsL ('(' :: (body ++ [')']))).getLast? = some wlast := by
    rw [hA']
    exact List.getLast?_concat _
  have hwlne : wlast ≠ [] := by
    intro h
    rw [h] at hAlast
    simp at hAlast
  have hflat := wrapChunksAux_flatten width sub.length
    (splitWordsL ('(' :: (body ++ [')']))) [] 0
  simp only [List.reverse_nil, List.nil_append] at hflat
  have hnem := wrapChunksAux_ne_nil width sub.length
    (splitWordsL ('(' :: (body ++ [')']))) [] 0
    (by intro _; rw [hsplit]; simp)
  have hW : wrapTextL width [] sub ('(' :: (body ++ [')'])) =
      renderChunks [] sub (wrapChunksAux width sub.length
        (splitWordsL ('(' :: (body ++ [')']))) [] 0) := by
    unfold wrapTextL
    rw [hsplit]
    rfl
  rw [hW]
  rcases hchs : wrapChunksAux width sub.length
      (splitWordsL ('(' :: (body ++ [')']))) [] 0 with _ | ⟨ch0, chrest⟩
  · rw [hchs, hsplit] at hflat
    simp at hflat
  · have hch0ne : ch0 ≠ [] := hnem ch0 (by rw [hchs]; exact List.mem_cons_self _ _)
    obtain ⟨cw0, cwrest, rfl⟩ : ∃ y ys, ch0 = y :: ys := by
      cases ch0 with
      | nil => exact absurd rfl hch0ne
      | cons y ys => exact ⟨y, ys, rfl⟩
    have hflat2 := hflat
    rw [hchs] at hflat2
    have hflat3 := hflat2
    rw [hsplit, List.flatten_cons, List.cons_append] at hflat3
    injection hflat3 with hcw0 hrest2
    subst hcw0
    refine ⟨[] ++ joinSp (('(' :: w1) :: cwrest),
      chrest.map (fun l => sub ++ joinSp l), rfl, ?_, ?_⟩
    · obtain ⟨t2, ht2⟩ := joinSp_head ('(' :: w1) cwrest
      exact ⟨w1 ++ t2, by simp [ht2]⟩
    · rcases hgl : ((('(' :: w1) :: cwrest) :: chrest).getLast? with _ | chl
      · rw [List.getLast?_eq_none_iff] at hgl
        exact absurd hgl (by simp)
      · have hchlne : chl ≠ [] :=
          hnem chl (by rw [hchs]; exact List.mem_of_getLast?_eq_some hgl)
        have hfl2 := flatten_getLast_of _ chl hgl hchlne
        rw [hflat2, hwl] at hfl2
        have hjoin := joinSp_getLast? chl wlast hfl2.symm hwlne
        rw [hAlast] at hjoin
        have hjne : joinSp chl ≠ [] := by
          intro h
          rw [h] at hjoin
          simp at hjoin
        obtain ⟨pre, hpre⟩ := renderChunks_getLast [] sub (('(' :: w1) :: cwrest) chrest chl hgl
        refine ⟨pre ++ joinSp chl, hpre, ?_⟩
        rw [List.getLast?_append_of_ne_nil _ hjne]
        exact hjoin

/-- Claim C7: for a non-triple-quoted string literal, fix_docstring wraps
at width 79 minus the column minus the closing delimiter's length (stated
against docstringMaxLength, the direct translation of source lines 83 and
92 that fix_docstring uses); the wrapped value is the literal enclosed in
a synthetic parenthesis pair — observable as the first produced STRING
leaf starting with '(' and the last ending with ')' — and every produced
STRING leaf except the last has the closing delimiter appended. -/
theorem docstringRewrapFaithful (a : Nat) (v p : String) (c : Nat) (w : Bool) (ns : List PN)
    (hq : tripleQuoted (getQuotes v).1 = false)
    (hrun : fixDocstring (.leaf a v p c w) = .ok ns) :
    docstringMaxLength v c = ((MAX_CHARS : Int) - c) - ((getQuotes v).2.length : Int) ∧
    (∀ s ∈ (stringVals ns).dropLast, ∃ l, s.data = l ++ (getQuotes v).2.data) ∧
    (∃ s0 srest t0, stringVals ns = s0 :: srest ∧ s0.data = '(' :: t0) ∧
    (∃ sl, (stringVals ns).getLast? = some sl ∧ sl.data.getLast? = some ')') := by
  refine ⟨by simp [docstringMaxLength, hq], ?_⟩
  unfold fixDocstring at hrun
  simp only [hq, Bool.false_eq_true, if_false] at hrun
  split at hrun
  · simp at hrun
  · rename_i hpos
    obtain ⟨x0, xs, hWx, ⟨t0, hx0⟩, ⟨xl, hxl, hxlast⟩⟩ :=
      wrapTextL_paren (docstringMaxLength v c).toNat
        (List.replicate (4 + c) ' ' ++ (getQuotes v).1.data) v.data
    split at hrun
    · simp at hrun
    · rename_i l0 rest heq
      injection hrun with hns
      subst hns
      have hsv := stringVals_build l0 rest
      rw [hWx] at heq
      refine ⟨?_, ?_, ?_⟩
      · intro s hs
        rw [hsv, map_dropLast'] at hs
        obtain ⟨li, hli, rfl⟩ := List.mem_map.mp hs
        rw [← heq, closeLinesL_dropLast] at hli
        obtain ⟨l', _, rfl⟩ := List.mem_map.mp hli
        exact ⟨l', rfl⟩
      · have hl0 : ∃ t, l0 = x0 ++ t := by
          cases xs with
          | nil =>
            rw [show closeLinesL (getQuotes v).2.data [x0] = [x0] from rfl] at heq
            injection heq with h1 _
            exact ⟨[], by rw [← h1]; simp⟩
          | cons x1 xs' =>
            rw [show closeLinesL (getQuotes v).2.data (x0 :: x1 :: xs') =
              (x0 ++ (getQuotes v).2.data) :: closeLinesL (getQuotes v).2.data (x1 :: xs')
              from rfl] at heq
            injection heq with h1 _
            exact ⟨(getQuotes v).2.data, h1.symm⟩
        obtain ⟨t, ht⟩ := hl0
        refine ⟨String.mk l0, rest.map String.mk, t0 ++ t, by rw [hsv]; rfl, ?_⟩
        rw [show (String.mk l0).data = l0 from rfl, ht, hx0]
        rfl
      · have hlast : (l0 :: rest).getLast? = some xl := by
          rw [← heq, closeLinesL_getLast?]
          exact hxl
        refine ⟨String.mk xl, ?_, hxlast⟩
        rw [hsv, List.getLast?_map, hlast]
        rfl

/-- Witness for claim C7 at a concrete single-quoted literal at column 60. -/
theorem docstringRewrapFaithfulWitness :
    docstringMaxLength "'abc def'" 60 =
      ((MAX_CHARS : Int) - 60) - ((getQuotes "'abc def'").2.length : Int) ∧
    (∀ s ∈ (stringVals [PN.leaf tokSTRING "('abc def')" "" 0 false]).dropLast,
      ∃ l, s.data = l ++ (getQuotes "'abc def'").2.data) ∧
    (∃ s0 srest t0, stringVals [PN.leaf tokSTRING "('abc def')" "" 0 false] = s0 :: srest ∧
      s0.data = '(' :: t0) ∧
    (∃ sl, (stringVals [PN.leaf tokSTRING "('abc def')" "" 0 false]).getLast? = some sl ∧
      sl.data.getLast? = some ')') :=
  docstringRewrapFaithful tokSTRING "'abc def'" "" 60 false
    [PN.leaf tokSTRING "('abc def')" "" 0 false] rfl rfl
